import Mathlib

/-!
# The Ixo lexer (`src/lexer.cpp`)

A shallow embedding of `Lexer::tokenize` and of its four helper methods
(`consumeComment`, `consumeWord`, `consumeNumber`, `consumeString`).

* The input `std::string` is a `List Char`; a character stands for one byte
  of the source string and is classified as the C locale classifies it
  (`isalpha`, `isdigit`, `isalnum`, `isspace` look at the ASCII range only).
* The cursor `pos` is a natural number (`size_t`; no subtraction in the
  source goes below zero, and no addition comes near `2^64`).
* `std::string::substr` throws `std::out_of_range` when its start lies past
  the end of the string: `substr` returns an `Option`.
* The scan loop of `tokenize` need not terminate, so it is given fuel:
  `tokenizeLoop input fuel pos tokens` runs at most `fuel` iterations.
-/

namespace Ixo

/-- Token kinds: the enumeration `TokenType` of the source. -/
inductive TokenType where
  | START
  | END
  | COMMENT
  | KEYWORD
  | TYPE
  | IDENTIFIER
  | OPERATOR
  | NUMBER
  | STRING
  | DELIMITER
  | PUNCTUATION
  | UNKNOWN
  deriving DecidableEq

/-- A token: `struct Token` of the source, a kind and the lexeme. -/
structure Token where
  type : TokenType
  value : List Char
  deriving DecidableEq

/-- The NUL character, which terminates every C string literal. -/
def nul : Char := Char.ofNat 0

/-- The newline character. -/
def newline : Char := Char.ofNat 10

/-- The double quote character. -/
def dquote : Char := Char.ofNat 34

/-- The single quote character. -/
def squote : Char := Char.ofNat 39

/-- C `isalpha` in the C locale: an ASCII letter. -/
def isalpha (c : Char) : Bool :=
  (65 ≤ c.toNat && c.toNat ≤ 90) || (97 ≤ c.toNat && c.toNat ≤ 122)

/-- C `isdigit`: an ASCII digit. -/
def isdigit (c : Char) : Bool :=
  48 ≤ c.toNat && c.toNat ≤ 57

/-- C `isalnum` in the C locale: an ASCII letter or digit. -/
def isalnum (c : Char) : Bool :=
  isalpha c || isdigit c

/-- C `isspace` in the C locale: space, `\t`, `\n`, `\v`, `\f`, `\r`. -/
def isspace (c : Char) : Bool :=
  c.toNat = 32 || (9 ≤ c.toNat && c.toNat ≤ 13)

/-- C `strchr(s, c) != NULL` for a string literal `s`: the terminating NUL of
`s` counts as part of it, so the character NUL is always found. -/
def strchr (s : List Char) (c : Char) : Bool :=
  s.contains c || c == nul

/-- The keyword table `keywords` of the source. -/
def keywords : List (List Char) :=
  ["fn", "class", "return", "if", "else", "while", "for", "switch", "case",
   "default", "do", "with", "try", "except", "in", "not", "and", "or"].map String.toList

/-- The type-name table `types` of the source. -/
def types : List (List Char) :=
  ["int", "float", "str", "bool", "tuple", "list", "dict"].map String.toList

/-- The characters of the literal `"()[]{}"`. -/
def delimiterChars : List Char := "()[]\x7b\x7d".toList

/-- The characters of the literal `":,;"`. -/
def punctuationChars : List Char := ":,;".toList

/-- The characters of the literal `"+-*/%^&|!<>=~"`. -/
def operatorChars : List Char := "+-*/%^&|!<>=~".toList

/-- The loop `while (pos < input.size() && p(input[pos])) pos++;`, which all
four helpers and the operator fallback share. Each iteration moves `pos` one
step closer to `input.size()`, so `input.length` iterations are enough and the
callers pass that as `fuel`. -/
def scanWhile (p : Char → Bool) (input : List Char) : Nat → Nat → Nat
  | 0, pos => pos
  | fuel + 1, pos =>
    if pos < input.length && p (input.getD pos nul) then
      scanWhile p input fuel (pos + 1)
    else pos

/-- The call `input.substr(start, len)`: throws (`none`) when `start` is past
the end, otherwise the characters from `start`, at most `len` of them. -/
def substr (input : List Char) (start len : Nat) : Option (List Char) :=
  if start ≤ input.length then some ((input.drop start).take len) else none

/-- The method `Lexer::consumeComment`: the token and the new cursor. -/
def consumeComment (input : List Char) (pos : Nat) : Option (Token × Nat) :=
  let start := pos
  let pos := scanWhile (fun c => c != newline) input input.length (pos + 1)
  (substr input start (pos - start)).map fun value => (⟨TokenType.COMMENT, value⟩, pos)

/-- The method `Lexer::consumeWord`: the token and the new cursor. -/
def consumeWord (input : List Char) (pos : Nat) : Option (Token × Nat) :=
  let start := pos
  let pos := scanWhile (fun c => isalnum c || c == '_') input input.length (pos + 1)
  (substr input start (pos - start)).map fun value =>
    if keywords.contains value then (⟨TokenType.KEYWORD, value⟩, pos)
    else if types.contains value then (⟨TokenType.TYPE, value⟩, pos)
    else (⟨TokenType.IDENTIFIER, value⟩, pos)

/-- The method `Lexer::consumeNumber`: the token and the new cursor. -/
def consumeNumber (input : List Char) (pos : Nat) : Option (Token × Nat) :=
  let start := pos
  let pos := scanWhile (fun c => isdigit c || c == '.') input input.length (pos + 1)
  (substr input start (pos - start)).map fun value => (⟨TokenType.NUMBER, value⟩, pos)

/-- The method `Lexer::consumeString`: the token and the new cursor. The
cursor is moved past the closing quote also when there is none
(`pos++ - start` in the source), so it may end one past the end of input. -/
def consumeString (input : List Char) (pos : Nat) : Option (Token × Nat) :=
  let quote := input.getD pos nul
  let start := pos + 1
  let pos := scanWhile (fun c => c != quote) input input.length (pos + 1)
  (substr input start (pos - start)).map fun value => (⟨TokenType.STRING, value⟩, pos + 1)

/-- One iteration of the scan loop of `Lexer::tokenize`, entered with
`pos < input.size()`: the new cursor and the new token vector, or `none` when
`substr` throws. -/
def step (input : List Char) (pos : Nat) (tokens : List Token) : Option (Nat × List Token) :=
  let c := input.getD pos nul
  if c = '#' then
    (consumeComment input pos).map fun r => (r.2, tokens ++ [r.1])
  else if isalpha c then
    (consumeWord input pos).map fun r => (r.2, tokens ++ [r.1])
  else if isdigit c || c == '.' then
    (consumeNumber input pos).map fun r => (r.2, tokens ++ [r.1])
  else if c == dquote || c == squote then
    (consumeString input pos).map fun r => (r.2, tokens ++ [r.1])
  else if strchr delimiterChars c then
    some (pos + 1,
      tokens ++ [⟨if c = '\x7b' then TokenType.START
                  else if c = '\x7d' then TokenType.END else TokenType.DELIMITER,
                 [input.getD pos nul]⟩])
  else if strchr punctuationChars c then
    some (pos + 1, tokens ++ [⟨TokenType.PUNCTUATION, [input.getD pos nul]⟩])
  else if isspace c then
    some (pos + 1, tokens)
  else
    let start := pos
    let pos := scanWhile (fun c => strchr operatorChars c || c == '.') input input.length pos
    (substr input start (pos - start)).map fun value =>
      (pos, tokens ++ [⟨TokenType.OPERATOR, value⟩])

/-- What a run of `tokenize` comes to. -/
inductive Outcome where
  | returned (tokens : List Token)
  | threw
  | unfinished
  deriving DecidableEq

/-- The scan loop `while (pos < input.size()) { ... }` of `Lexer::tokenize`,
run for at most `fuel` iterations: `returned tokens` when the loop is left,
`threw` when an iteration throws, `unfinished` when `fuel` iterations have run
and the loop condition still holds. -/
def tokenizeLoop (input : List Char) : Nat → Nat → List Token → Outcome
  | 0, pos, tokens => if pos < input.length then Outcome.unfinished else Outcome.returned tokens
  | fuel + 1, pos, tokens =>
    if pos < input.length then
      match step input pos tokens with
      | none => Outcome.threw
      | some r => tokenizeLoop input fuel r.1 r.2
    else Outcome.returned tokens

/-- The method `Lexer::tokenize` on a fresh lexer (`pos = 0`, no tokens),
with one iteration of fuel per input character: an iteration that moves the
cursor forward uses up at least one character, and one that does not is
repeated for ever (`tokenizeLoop_stall`). -/
def tokenize (input : List Char) : Outcome :=
  tokenizeLoop input input.length 0 []

/-- A token of kind `t` with text `s`. -/
def tok (t : TokenType) (s : String) : Token := ⟨t, s.toList⟩

/-- The kind `consumeWord` gives a lexeme: the chain of table lookups at the
end of that method. -/
def wordType (value : List Char) : TokenType :=
  if keywords.contains value then TokenType.KEYWORD
  else if types.contains value then TokenType.TYPE
  else TokenType.IDENTIFIER

/-- One iteration of the scan loop, read off the rest of the input at the
cursor: how far the cursor moves and which tokens are appended. This is not a
function of the source; `step_eq_lexAt` proves that `step` computes it. -/
def lexAt : List Char → Nat × List Token
  | [] => (0, [])
  | c :: rest =>
    if c = '#' then
      let body := rest.takeWhile fun x => x != newline
      (body.length + 1, [⟨TokenType.COMMENT, c :: body⟩])
    else if isalpha c then
      let body := rest.takeWhile fun x => isalnum x || x == '_'
      (body.length + 1, [⟨wordType (c :: body), c :: body⟩])
    else if isdigit c || c == '.' then
      let body := rest.takeWhile fun x => isdigit x || x == '.'
      (body.length + 1, [⟨TokenType.NUMBER, c :: body⟩])
    else if c == dquote || c == squote then
      let body := rest.takeWhile fun x => x != c
      (body.length + 2, [⟨TokenType.STRING, body⟩])
    else if strchr delimiterChars c then
      (1, [⟨if c = '\x7b' then TokenType.START
            else if c = '\x7d' then TokenType.END else TokenType.DELIMITER, [c]⟩])
    else if strchr punctuationChars c then
      (1, [⟨TokenType.PUNCTUATION, [c]⟩])
    else if isspace c then
      (1, [])
    else
      let run := (c :: rest).takeWhile fun x => strchr operatorChars x || x == '.'
      (run.length, [⟨TokenType.OPERATOR, run⟩])

/-- The texts of a token sequence, one after the other. -/
def texts : List Token → List Char
  | [] => []
  | t :: ts => t.value ++ texts ts

/-- The input with its whitespace characters (those of `isspace`) removed. -/
def dropSpaces (input : List Char) : List Char :=
  input.filter fun c => !isspace c

/-- A run of the loop that starts with `tokens` already in the vector, given
what the same run comes to when it starts with none: the run's tokens follow
`tokens`. -/
def extendOutcome (tokens : List Token) : Outcome → Outcome
  | Outcome.returned out => Outcome.returned (tokens ++ out)
  | Outcome.threw => Outcome.threw
  | Outcome.unfinished => Outcome.unfinished

/-- A text with its whitespace characters (those of `isspace`) and both quote
characters removed. -/
def dropSpacesQuotes (l : List Char) : List Char :=
  l.filter fun c => !(isspace c || c == dquote || c == squote)

/-- The characters some branch of the scan loop is written for: the ones the
seven tests of the loop accept, and the characters of the operator literal.
This is not a function of the source. -/
def classified (c : Char) : Bool :=
  c == '#' || isalpha c || (isdigit c || c == '.') || (c == dquote || c == squote) ||
    strchr delimiterChars c || strchr punctuationChars c || isspace c ||
    operatorChars.contains c

/-! ## The inner loops and `substr` in terms of the rest of the input -/

theorem take_length_takeWhile (p : Char → Bool) (l : List Char) :
    l.take (l.takeWhile p).length = l.takeWhile p := by
  induction l with
  | nil => simp
  | cons a l ih =>
    by_cases h : p a = true
    · simp [List.takeWhile_cons, h, ih]
    · simp [List.takeWhile_cons, h]

theorem drop_length_takeWhile (p : Char → Bool) (l : List Char) :
    l.drop (l.takeWhile p).length = l.dropWhile p := by
  induction l with
  | nil => simp
  | cons a l ih =>
    by_cases h : p a = true
    · simp [List.takeWhile_cons, List.dropWhile_cons, h, ih]
    · simp [List.takeWhile_cons, List.dropWhile_cons, h]

theorem lt_length_of_drop {input : List Char} {pos : Nat} {c : Char} {rest : List Char}
    (h : input.drop pos = c :: rest) : pos < input.length := by
  by_contra hlt
  rw [List.drop_eq_nil_of_le (Nat.le_of_not_lt hlt)] at h
  cases h

theorem getD_of_drop {input : List Char} {pos : Nat} {c : Char} {rest : List Char}
    (h : input.drop pos = c :: rest) (d : Char) : input.getD pos d = c := by
  have hlt := lt_length_of_drop h
  rw [List.drop_eq_getElem_cons hlt] at h
  rw [List.getD_eq_getElem _ _ hlt]
  exact (List.cons.inj h).1

theorem drop_succ_of_drop {input : List Char} {pos : Nat} {c : Char} {rest : List Char}
    (h : input.drop pos = c :: rest) : input.drop (pos + 1) = rest := by
  have hlt := lt_length_of_drop h
  rw [List.drop_eq_getElem_cons hlt] at h
  exact (List.cons.inj h).2

theorem scanWhile_eq (p : Char → Bool) (input : List Char) :
    ∀ (fuel pos : Nat), input.length ≤ pos + fuel →
      scanWhile p input fuel pos = pos + ((input.drop pos).takeWhile p).length := by
  intro fuel
  induction fuel with
  | zero =>
    intro pos h
    rw [List.drop_eq_nil_of_le (by omega)]
    simp [scanWhile]
  | succ fuel ih =>
    intro pos h
    by_cases hlt : pos < input.length
    · have hd : input.drop pos = input[pos] :: input.drop (pos + 1) :=
        List.drop_eq_getElem_cons hlt
      have hg : input.getD pos nul = input[pos] := List.getD_eq_getElem _ _ hlt
      by_cases hp : p input[pos] = true
      · rw [scanWhile, hg, hd, List.takeWhile_cons_of_pos hp, ih (pos + 1) (by omega)]
        simp [hlt, hp]
        omega
      · rw [scanWhile, hg, hd, List.takeWhile_cons_of_neg hp]
        simp [hp]
    · rw [List.drop_eq_nil_of_le (by omega)]
      simp [scanWhile, hlt]

/-- The inner loop started at the cursor, with the fuel its callers give it. -/
theorem scanWhile_length (p : Char → Bool) (input : List Char) (pos : Nat) :
    scanWhile p input input.length pos = pos + ((input.drop pos).takeWhile p).length :=
  scanWhile_eq p input input.length pos (by omega)

theorem substr_eq {input : List Char} {start : Nat} (h : start ≤ input.length) (len : Nat) :
    substr input start len = some ((input.drop start).take len) := by
  simp [substr, h]

/-! ## The helper methods in terms of the rest of the input -/

theorem consumeComment_eq {input : List Char} {pos : Nat} {c : Char} {rest : List Char}
    (h : input.drop pos = c :: rest) :
    consumeComment input pos =
      some (⟨TokenType.COMMENT, c :: rest.takeWhile fun x => x != newline⟩,
            pos + ((rest.takeWhile fun x => x != newline).length + 1)) := by
  have hlt := lt_length_of_drop h
  simp only [consumeComment, scanWhile_length, drop_succ_of_drop h]
  rw [substr_eq (Nat.le_of_lt hlt), h]
  have hk : ∀ k : Nat, pos + 1 + k - pos = k + 1 := fun k => by omega
  rw [hk, List.take_succ_cons, take_length_takeWhile]
  simp [Nat.add_assoc, Nat.add_comm]

theorem consumeWord_eq {input : List Char} {pos : Nat} {c : Char} {rest : List Char}
    (h : input.drop pos = c :: rest) :
    consumeWord input pos =
      some (⟨wordType (c :: rest.takeWhile fun x => isalnum x || x == '_'),
             c :: rest.takeWhile fun x => isalnum x || x == '_'⟩,
            pos + ((rest.takeWhile fun x => isalnum x || x == '_').length + 1)) := by
  have hlt := lt_length_of_drop h
  simp only [consumeWord, scanWhile_length, drop_succ_of_drop h]
  rw [substr_eq (Nat.le_of_lt hlt), h]
  have hk : ∀ k : Nat, pos + 1 + k - pos = k + 1 := fun k => by omega
  rw [hk, List.take_succ_cons, take_length_takeWhile]
  simp only [Option.map_some', wordType]
  split_ifs <;> simp [Nat.add_assoc, Nat.add_comm]

theorem consumeNumber_eq {input : List Char} {pos : Nat} {c : Char} {rest : List Char}
    (h : input.drop pos = c :: rest) :
    consumeNumber input pos =
      some (⟨TokenType.NUMBER, c :: rest.takeWhile fun x => isdigit x || x == '.'⟩,
            pos + ((rest.takeWhile fun x => isdigit x || x == '.').length + 1)) := by
  have hlt := lt_length_of_drop h
  simp only [consumeNumber, scanWhile_length, drop_succ_of_drop h]
  rw [substr_eq (Nat.le_of_lt hlt), h]
  have hk : ∀ k : Nat, pos + 1 + k - pos = k + 1 := fun k => by omega
  rw [hk, List.take_succ_cons, take_length_takeWhile]
  simp [Nat.add_assoc, Nat.add_comm]

theorem consumeString_eq {input : List Char} {pos : Nat} {c : Char} {rest : List Char}
    (h : input.drop pos = c :: rest) :
    consumeString input pos =
      some (⟨TokenType.STRING, rest.takeWhile fun x => x != c⟩,
            pos + ((rest.takeWhile fun x => x != c).length + 2)) := by
  have hlt := lt_length_of_drop h
  simp only [consumeString, scanWhile_length, drop_succ_of_drop h, getD_of_drop h]
  rw [substr_eq (Nat.succ_le_of_lt hlt), drop_succ_of_drop h]
  have hk : ∀ k : Nat, pos + 1 + k - (pos + 1) = k := fun k => by omega
  rw [hk, take_length_takeWhile]
  have hn : ∀ k : Nat, pos + 1 + k + 1 = pos + (k + 2) := fun k => by omega
  simp only [Option.map_some', hn]

/-- One iteration of the scan loop depends on the input only through the rest
of the input at the cursor: it moves the cursor by `(lexAt rest).1` and
appends `(lexAt rest).2`. In particular `substr` never throws. -/
theorem step_eq_lexAt {input : List Char} {pos : Nat} (hlt : pos < input.length)
    (tokens : List Token) :
    step input pos tokens =
      some (pos + (lexAt (input.drop pos)).1, tokens ++ (lexAt (input.drop pos)).2) := by
  have h : input.drop pos = input[pos] :: input.drop (pos + 1) := List.drop_eq_getElem_cons hlt
  generalize input[pos] = c at h
  generalize input.drop (pos + 1) = rest at h
  rw [h]
  simp only [step, lexAt, getD_of_drop h]
  split_ifs
  · simp [consumeComment_eq h]
  · simp [consumeWord_eq h]
  · simp [consumeNumber_eq h]
  · simp [consumeString_eq h]
  all_goals first
    | rfl
    | (simp; done)
    | (simp only [scanWhile_length, h]
       rw [substr_eq (Nat.le_of_lt hlt), h]
       have hk : ∀ k : Nat, pos + k - pos = k := fun k => by omega
       rw [hk, take_length_takeWhile]
       rfl)

/-! ## The scan loop -/

theorem tokenizeLoop_done {input : List Char} {pos : Nat} (h : input.length ≤ pos)
    (fuel : Nat) (tokens : List Token) :
    tokenizeLoop input fuel pos tokens = Outcome.returned tokens := by
  cases fuel <;> simp [tokenizeLoop, Nat.not_lt.mpr h]

theorem tokenizeLoop_succ {input : List Char} {pos : Nat} (h : pos < input.length)
    (fuel : Nat) (tokens : List Token) :
    tokenizeLoop input (fuel + 1) pos tokens =
      tokenizeLoop input fuel (pos + (lexAt (input.drop pos)).1)
        (tokens ++ (lexAt (input.drop pos)).2) := by
  simp [tokenizeLoop, h, step_eq_lexAt h]

/-- An iteration that leaves the cursor where it is is repeated for ever: no
amount of fuel lets the loop finish. -/
theorem tokenizeLoop_stall {input : List Char} {pos : Nat} (h : pos < input.length)
    (h0 : (lexAt (input.drop pos)).1 = 0) (fuel : Nat) :
    ∀ tokens : List Token, tokenizeLoop input fuel pos tokens = Outcome.unfinished := by
  induction fuel with
  | zero => intro tokens; simp [tokenizeLoop, h]
  | succ fuel ih =>
    intro tokens
    rw [tokenizeLoop_succ h, h0]
    exact ih _

/-- No run of the loop throws. -/
theorem tokenizeLoop_ne_threw (input : List Char) (fuel : Nat) :
    ∀ (pos : Nat) (tokens : List Token),
      tokenizeLoop input fuel pos tokens ≠ Outcome.threw := by
  induction fuel with
  | zero => intro pos tokens; simp only [tokenizeLoop]; split_ifs <;> simp
  | succ fuel ih =>
    intro pos tokens
    by_cases h : pos < input.length
    · rw [tokenizeLoop_succ h]; exact ih _ _
    · rw [tokenizeLoop_done (Nat.le_of_not_lt h)]; simp

/-- A run that returns returns the same tokens with the fuel `tokenize` gives
the loop (one iteration per character that is left). -/
theorem tokenizeLoop_returned_fuel (input : List Char) (fuel : Nat) :
    ∀ (pos : Nat) (tokens out : List Token),
      tokenizeLoop input fuel pos tokens = Outcome.returned out →
      ∀ fuel2 : Nat, input.length - pos ≤ fuel2 →
        tokenizeLoop input fuel2 pos tokens = Outcome.returned out := by
  induction fuel with
  | zero =>
    intro pos tokens out h fuel2 _
    by_cases hlt : pos < input.length
    · simp [tokenizeLoop, hlt] at h
    · rw [tokenizeLoop_done (Nat.le_of_not_lt hlt)] at h ⊢; exact h
  | succ fuel ih =>
    intro pos tokens out h fuel2 hf
    by_cases hlt : pos < input.length
    · by_cases h0 : (lexAt (input.drop pos)).1 = 0
      · rw [tokenizeLoop_stall hlt h0] at h; cases h
      · rw [tokenizeLoop_succ hlt] at h
        obtain ⟨f, rfl⟩ : ∃ f, fuel2 = f + 1 := ⟨fuel2 - 1, by omega⟩
        rw [tokenizeLoop_succ hlt]
        exact ih _ _ _ h f (by omega)
    · rw [tokenizeLoop_done (Nat.le_of_not_lt hlt)] at h ⊢; exact h

/-- The fuel of `tokenize` loses nothing: `tokenize` returns `out` exactly
when the loop, started as `tokenize` starts it, returns `out` for some fuel. -/
theorem tokenize_returned_iff (input : List Char) (out : List Token) :
    tokenize input = Outcome.returned out ↔
      ∃ fuel : Nat, tokenizeLoop input fuel 0 [] = Outcome.returned out := by
  constructor
  · intro h; exact ⟨input.length, h⟩
  · rintro ⟨fuel, h⟩
    exact tokenizeLoop_returned_fuel input fuel 0 [] out h input.length (by omega)

/-- The fuel of `tokenize` loses nothing: `tokenize` is `unfinished` exactly
when the loop never finishes, whatever the fuel. -/
theorem tokenize_unfinished_iff (input : List Char) :
    tokenize input = Outcome.unfinished ↔
      ∀ fuel : Nat, tokenizeLoop input fuel 0 [] = Outcome.unfinished := by
  constructor
  · intro h fuel
    cases hr : tokenizeLoop input fuel 0 [] with
    | returned out =>
      have := (tokenize_returned_iff input out).mpr ⟨fuel, hr⟩
      rw [h] at this; cases this
    | threw => exact absurd hr (tokenizeLoop_ne_threw input fuel 0 [])
    | unfinished => rfl
  · intro h; exact h input.length

/-- An input whose first iteration takes it all is one iteration's tokens. -/
theorem tokenize_single {input : List Char} (hne : input ≠ [])
    (h : input.length ≤ (lexAt input).1) :
    tokenize input = Outcome.returned (lexAt input).2 := by
  have hpos : 0 < input.length := List.length_pos.mpr hne
  obtain ⟨n, hn⟩ : ∃ n, input.length = n + 1 := ⟨input.length - 1, by omega⟩
  rw [tokenize, hn, tokenizeLoop_succ hpos, List.drop_zero, tokenizeLoop_done (by omega)]
  simp

/-! ## Facts about the character classes -/

theorem isalpha_ne_hash {c : Char} (h : isalpha c = true) : c ≠ '#' := by
  rintro rfl; revert h; decide

theorem isdigit_or_dot_ne_hash {c : Char} (h : isdigit c = true ∨ c = '.') : c ≠ '#' := by
  rintro rfl; revert h; decide

theorem isdigit_or_dot_not_isalpha {c : Char} (h : isdigit c = true ∨ c = '.') :
    isalpha c = false := by
  rcases h with h | rfl
  · simp only [isdigit, isalpha, Bool.and_eq_true, decide_eq_true_eq] at h ⊢
    simp only [Bool.or_eq_false_iff, Bool.and_eq_false_iff, decide_eq_false_iff_not]
    omega
  · decide

theorem takeWhile_all {p : Char → Bool} {l : List Char} (h : ∀ x ∈ l, p x = true) :
    l.takeWhile p = l :=
  List.takeWhile_eq_self_iff.mpr h

theorem takeWhile_ne_of_not_mem {q : Char} {s : List Char} (h : q ∉ s) (t : List Char) :
    (s ++ q :: t).takeWhile (fun x => x != q) = s := by
  induction s with
  | nil => simp
  | cons a s ih =>
    have ha : a ≠ q := fun e => h (e ▸ List.mem_cons_self _ _)
    have hs : q ∉ s := fun e => h (List.mem_cons_of_mem _ e)
    simp [List.takeWhile_cons, ha, ih hs]

theorem takeWhile_ne_self_of_not_mem {q : Char} {s : List Char} (h : q ∉ s) :
    s.takeWhile (fun x => x != q) = s := by
  apply takeWhile_all
  intro x hx
  have : x ≠ q := fun e => h (e ▸ hx)
  simp [this]

theorem dropWhile_head_not {p : Char → Bool} {l : List Char} {d : Char} {tl : List Char}
    (h : l.dropWhile p = d :: tl) : p d = false := by
  induction l with
  | nil => simp at h
  | cons a l ih =>
    by_cases ha : p a = true
    · rw [List.dropWhile_cons_of_pos ha] at h; exact ih h
    · rw [List.dropWhile_cons_of_neg ha] at h
      have := (List.cons.inj h).1
      subst this
      simpa using ha

theorem drop_add_of_drop {input : List Char} {pos : Nat} {c : Char} {rest : List Char}
    (h : input.drop pos = c :: rest) (k : Nat) :
    input.drop (pos + (k + 1)) = rest.drop k := by
  rw [← drop_succ_of_drop h, List.drop_drop]
  congr 1; omega

/-- The first iteration on an input that starts with a quote character. -/
theorem lexAt_quote {q : Char} (hq : q = dquote ∨ q = squote) (rest : List Char) :
    lexAt (q :: rest) =
      ((rest.takeWhile fun x => x != q).length + 2,
       [⟨TokenType.STRING, rest.takeWhile fun x => x != q⟩]) := by
  rcases hq with rfl | rfl
  · simp only [lexAt]
    rw [if_neg (by decide), if_neg (by decide), if_neg (by decide), if_pos (by decide)]
  · simp only [lexAt]
    rw [if_neg (by decide), if_neg (by decide), if_neg (by decide), if_pos (by decide)]

theorem isalpha_not_isspace {c : Char} (h : isalpha c = true) : isspace c = false := by
  simp only [isalpha, Bool.or_eq_true, Bool.and_eq_true, decide_eq_true_eq] at h
  simp only [isspace, Bool.or_eq_false_iff, Bool.and_eq_false_iff, decide_eq_false_iff_not]
  omega

theorem isdigit_not_isspace {c : Char} (h : isdigit c = true) : isspace c = false := by
  simp only [isdigit, Bool.and_eq_true, decide_eq_true_eq] at h
  simp only [isspace, Bool.or_eq_false_iff, Bool.and_eq_false_iff, decide_eq_false_iff_not]
  omega

theorem word_char_not_isspace {c : Char} (h : (isalnum c || c == '_') = true) :
    isspace c = false := by
  simp only [isalnum, Bool.or_eq_true, beq_iff_eq] at h
  rcases h with (h | h) | rfl
  · exact isalpha_not_isspace h
  · exact isdigit_not_isspace h
  · decide

theorem number_char_not_isspace {c : Char} (h : (isdigit c || c == '.') = true) :
    isspace c = false := by
  simp only [Bool.or_eq_true, beq_iff_eq] at h
  rcases h with h | rfl
  · exact isdigit_not_isspace h
  · decide

theorem strchr_not_isspace {l : List Char} (hl : ∀ x ∈ l, isspace x = false) {c : Char}
    (h : strchr l c = true) : isspace c = false := by
  simp only [strchr, Bool.or_eq_true, List.contains, List.elem_iff, beq_iff_eq] at h
  rcases h with h | rfl
  · exact hl c h
  · decide

theorem operator_char_not_isspace {c : Char}
    (h : (strchr operatorChars c || c == '.') = true) : isspace c = false := by
  simp only [Bool.or_eq_true, beq_iff_eq] at h
  rcases h with h | rfl
  · exact strchr_not_isspace (by decide) h
  · decide

theorem texts_append (a b : List Token) : texts (a ++ b) = texts a ++ texts b := by
  induction a with
  | nil => rfl
  | cons t a ih => simp [texts, ih]

/-- A run of characters none of which is whitespace, followed by the rest of
the input without its whitespace, is the input without its whitespace. -/
theorem run_dropSpaces {p : Char → Bool} (hp : ∀ x, p x = true → isspace x = false)
    (l : List Char) :
    l.takeWhile p ++ dropSpaces (l.drop (l.takeWhile p).length) = dropSpaces l := by
  rw [drop_length_takeWhile]
  conv_rhs => rw [← List.takeWhile_append_dropWhile p l]
  simp only [dropSpaces, List.filter_append]
  congr 1
  symm
  apply List.filter_eq_self.mpr
  intro x hx
  have := List.mem_takeWhile_imp hx
  simp [hp x this]

theorem mem_takeWhile_not_isspace {p : Char → Bool}
    (hp : ∀ x, p x = true → isspace x = false) {l : List Char} {x : Char}
    (hx : x ∈ l.takeWhile p) : isspace x = false :=
  hp x (List.mem_takeWhile_imp hx)

theorem single_cover (type : TokenType) (c : Char) (rest : List Char)
    (hc : isspace c = false) :
    texts (1, [(⟨type, [c]⟩ : Token)]).2 ++ dropSpaces ((c :: rest).drop (1, [(⟨type, [c]⟩ : Token)]).1) =
        dropSpaces (c :: rest) ∧
      ∀ t ∈ (1, [(⟨type, [c]⟩ : Token)]).2, ∀ x ∈ t.value, isspace x = false := by
  refine ⟨by simp [texts, dropSpaces, hc], ?_⟩
  intro t ht x hx
  simp only [List.mem_singleton] at ht
  subst ht
  simp only [List.mem_singleton] at hx
  subst hx
  exact hc

/-- One iteration away from comments and string literals: the texts it appends,
followed by what is left of the input without its whitespace, are the rest of
the input without its whitespace, and the texts hold no whitespace. -/
theorem lexAt_cover (c : Char) (rest : List Char) (hc : c ≠ '#')
    (hq : (c == dquote || c == squote) = false) :
    texts (lexAt (c :: rest)).2 ++ dropSpaces ((c :: rest).drop (lexAt (c :: rest)).1) =
        dropSpaces (c :: rest) ∧
      ∀ t ∈ (lexAt (c :: rest)).2, ∀ x ∈ t.value, isspace x = false := by
  simp only [lexAt, if_neg hc, hq]
  split_ifs with h1 h2 h3 h4 h5 h6 h7
  · have hc1 := isalpha_not_isspace h1
    refine ⟨?_, ?_⟩
    · simp only [texts, List.append_nil, List.drop_succ_cons, List.cons_append]
      rw [run_dropSpaces (fun x hx => word_char_not_isspace hx)]
      simp [dropSpaces, hc1]
    · intro t ht x hx
      simp only [List.mem_singleton] at ht
      subst ht
      rcases List.mem_cons.mp hx with rfl | hx
      · exact hc1
      · exact mem_takeWhile_not_isspace (fun x hx => word_char_not_isspace hx) hx
  · have hc1 := number_char_not_isspace h2
    refine ⟨?_, ?_⟩
    · simp only [texts, List.append_nil, List.drop_succ_cons, List.cons_append]
      rw [run_dropSpaces (fun x hx => number_char_not_isspace hx)]
      simp [dropSpaces, hc1]
    · intro t ht x hx
      simp only [List.mem_singleton] at ht
      subst ht
      rcases List.mem_cons.mp hx with rfl | hx
      · exact hc1
      · exact mem_takeWhile_not_isspace (fun x hx => number_char_not_isspace hx) hx
  · exact h3.elim
  · exact single_cover _ c rest (strchr_not_isspace (by decide) h4)
  · exact single_cover _ c rest (strchr_not_isspace (by decide) h4)
  · exact single_cover _ c rest (strchr_not_isspace (by decide) h4)
  · exact single_cover _ c rest (strchr_not_isspace (by decide) h7)
  · rename_i hsp
    simp [texts, dropSpaces, hsp]
  · refine ⟨?_, ?_⟩
    · simp only [texts, List.append_nil]
      exact run_dropSpaces (fun x hx => operator_char_not_isspace hx) (c :: rest)
    · intro t ht x hx
      simp only [List.mem_singleton] at ht
      subst ht
      exact mem_takeWhile_not_isspace (fun x hx => operator_char_not_isspace hx) hx

/-- The loop on an input without `#` and quotes: what it returns reads, text
after text, as the texts it started with followed by the input from the cursor
on without its whitespace. -/
theorem tokenizeLoop_cover {input : List Char}
    (hin : ∀ x ∈ input, x ≠ '#' ∧ (x == dquote || x == squote) = false) (fuel : Nat) :
    ∀ (pos : Nat) (tokens out : List Token),
      tokenizeLoop input fuel pos tokens = Outcome.returned out →
      texts out = texts tokens ++ dropSpaces (input.drop pos) ∧
      ((∀ t ∈ tokens, ∀ x ∈ t.value, isspace x = false) →
        ∀ t ∈ out, ∀ x ∈ t.value, isspace x = false) := by
  induction fuel with
  | zero =>
    intro pos tokens out h
    by_cases hlt : pos < input.length
    · simp [tokenizeLoop, hlt] at h
    · have hle := Nat.le_of_not_lt hlt
      rw [tokenizeLoop_done hle] at h
      cases h
      simp [List.drop_eq_nil_of_le hle, dropSpaces]
  | succ fuel ih =>
    intro pos tokens out h
    by_cases hlt : pos < input.length
    · rw [tokenizeLoop_succ hlt] at h
      have hd : input.drop pos = input[pos] :: input.drop (pos + 1) :=
        List.drop_eq_getElem_cons hlt
      have hc := hin input[pos] (List.getElem_mem hlt)
      obtain ⟨h1, h2⟩ := ih _ _ _ h
      obtain ⟨c1, c2⟩ := lexAt_cover input[pos] (input.drop (pos + 1)) hc.1 hc.2
      rw [← hd] at c1 c2
      refine ⟨?_, ?_⟩
      · rw [h1, texts_append, List.append_assoc, ← List.drop_drop, c1]
      · intro htok
        apply h2
        intro t ht
        rcases List.mem_append.mp ht with ht | ht
        · exact htok t ht
        · exact c2 t ht
    · have hle := Nat.le_of_not_lt hlt
      rw [tokenizeLoop_done hle] at h
      cases h
      simp [List.drop_eq_nil_of_le hle, dropSpaces]

/-! ## Invariants of the scan loop -/

/-- What holds of the tokens of every iteration that moves the cursor holds of
every token of a run that returns: an iteration that leaves the cursor where
it is keeps the run from returning. -/
theorem tokenizeLoop_forall (P : Token → Prop) (input : List Char)
    (hstep : ∀ pos, pos < input.length → (lexAt (input.drop pos)).1 ≠ 0 →
      ∀ t ∈ (lexAt (input.drop pos)).2, P t) (fuel : Nat) :
    ∀ (pos : Nat) (tokens out : List Token),
      tokenizeLoop input fuel pos tokens = Outcome.returned out →
      (∀ t ∈ tokens, P t) → ∀ t ∈ out, P t := by
  induction fuel with
  | zero =>
    intro pos tokens out h htok
    by_cases hlt : pos < input.length
    · simp [tokenizeLoop, hlt] at h
    · rw [tokenizeLoop_done (Nat.le_of_not_lt hlt)] at h
      cases h
      exact htok
  | succ fuel ih =>
    intro pos tokens out h htok
    by_cases hlt : pos < input.length
    · by_cases h0 : (lexAt (input.drop pos)).1 = 0
      · rw [tokenizeLoop_stall hlt h0] at h; cases h
      · rw [tokenizeLoop_succ hlt] at h
        apply ih _ _ _ h
        intro t ht
        rcases List.mem_append.mp ht with ht | ht
        · exact htok t ht
        · exact hstep pos hlt h0 t ht
    · rw [tokenizeLoop_done (Nat.le_of_not_lt hlt)] at h
      cases h
      exact htok

/-- What holds of the tokens of every iteration that moves the cursor holds of
every token that `tokenize` returns. -/
theorem tokenize_forall (P : Token → Prop) (input : List Char)
    (hstep : ∀ pos, pos < input.length → (lexAt (input.drop pos)).1 ≠ 0 →
      ∀ t ∈ (lexAt (input.drop pos)).2, P t)
    {out : List Token} (h : tokenize input = Outcome.returned out) :
    ∀ t ∈ out, P t :=
  tokenizeLoop_forall P input hstep input.length 0 [] out h (fun t ht => by cases ht)

/-- The rest of the input at a cursor inside the input starts with a
character. -/
theorem drop_eq_cons {input : List Char} {pos : Nat} (hlt : pos < input.length) :
    input.drop pos = input[pos] :: input.drop (pos + 1) :=
  List.drop_eq_getElem_cons hlt

/-- The loop run from a cursor is the loop run on the rest of the input. -/
theorem tokenizeLoop_drop (input : List Char) (pos : Nat) (tokens : List Token) (fuel : Nat) :
    ∀ (p : Nat) (toks : List Token),
      tokenizeLoop input fuel (pos + p) (tokens ++ toks) =
        extendOutcome tokens (tokenizeLoop (input.drop pos) fuel p toks) := by
  induction fuel with
  | zero =>
    intro p toks
    by_cases hlt : pos + p < input.length
    · have hlt2 : p < input.length - pos := by omega
      simp [tokenizeLoop, hlt, hlt2, extendOutcome]
    · have hle2 : (input.drop pos).length ≤ p := by rw [List.length_drop]; omega
      rw [tokenizeLoop_done (Nat.le_of_not_lt hlt), tokenizeLoop_done hle2]
      rfl
  | succ fuel ih =>
    intro p toks
    by_cases hlt : pos + p < input.length
    · have hlt2 : p < (input.drop pos).length := by rw [List.length_drop]; omega
      rw [tokenizeLoop_succ hlt, tokenizeLoop_succ hlt2, List.drop_drop,
        Nat.add_assoc, List.append_assoc]
      exact ih _ _
    · have hle2 : (input.drop pos).length ≤ p := by rw [List.length_drop]; omega
      rw [tokenizeLoop_done (Nat.le_of_not_lt hlt), tokenizeLoop_done hle2]
      rfl

theorem wordType_cases (value : List Char) :
    wordType value = TokenType.KEYWORD ∨ wordType value = TokenType.TYPE ∨
      wordType value = TokenType.IDENTIFIER := by
  unfold wordType
  split_ifs <;> simp

/-- The three shapes of an iteration: one token whose text is the characters
the cursor passes; a whitespace character passed without a token; a string
literal, whose token leaves out the quotes the cursor passes. -/
theorem lexAt_shape (c : Char) (rest : List Char) :
    (∃ t : Token, (lexAt (c :: rest)).2 = [t] ∧
        t.value = (c :: rest).take (lexAt (c :: rest)).1 ∧ t.type ≠ TokenType.STRING) ∨
      (isspace c = true ∧ lexAt (c :: rest) = (1, [])) ∨
      ((c = dquote ∨ c = squote) ∧
        lexAt (c :: rest) = ((rest.takeWhile fun x => x != c).length + 2,
          [⟨TokenType.STRING, rest.takeWhile fun x => x != c⟩])) := by
  simp only [lexAt]
  split_ifs with h1 h2 h3 h4 h5 h6 h7 h8 h9
  · exact Or.inl ⟨_, rfl, by simp [take_length_takeWhile], by simp⟩
  · refine Or.inl ⟨_, rfl, by simp [take_length_takeWhile], ?_⟩
    rcases wordType_cases (c :: rest.takeWhile fun x => isalnum x || x == '_') with h | h | h <;>
      simp [h]
  · exact Or.inl ⟨_, rfl, by simp [take_length_takeWhile], by simp⟩
  · refine Or.inr (Or.inr ⟨?_, rfl⟩)
    simpa using h4
  · exact Or.inl ⟨_, rfl, by simp, by simp⟩
  · exact Or.inl ⟨_, rfl, by simp, by simp⟩
  · exact Or.inl ⟨_, rfl, by simp, by simp⟩
  · exact Or.inl ⟨_, rfl, by simp, by simp⟩
  · exact Or.inr (Or.inl ⟨h9, rfl⟩)
  · exact Or.inl ⟨_, rfl, by simp [take_length_takeWhile], by simp⟩

theorem dropSpacesQuotes_append (a b : List Char) :
    dropSpacesQuotes (a ++ b) = dropSpacesQuotes a ++ dropSpacesQuotes b := by
  simp [dropSpacesQuotes]

theorem dropSpacesQuotes_quote {q : Char} (hq : q = dquote ∨ q = squote) (l : List Char) :
    dropSpacesQuotes (q :: l) = dropSpacesQuotes l := by
  rcases hq with rfl | rfl <;> simp [dropSpacesQuotes]

/-- One iteration, whatever the character at the cursor: the texts it appends
and what is left of the input read the same as the rest of the input, once
whitespace and quotes are removed everywhere. -/
theorem lexAt_dropSpacesQuotes (c : Char) (rest : List Char) :
    dropSpacesQuotes (texts (lexAt (c :: rest)).2) ++
        dropSpacesQuotes ((c :: rest).drop (lexAt (c :: rest)).1) =
      dropSpacesQuotes (c :: rest) := by
  rcases lexAt_shape c rest with ⟨t, h2, hv, _⟩ | ⟨hs, hl⟩ | ⟨hq, hl⟩
  · rw [h2]
    simp only [texts, List.append_nil]
    rw [hv, ← dropSpacesQuotes_append, List.take_append_drop]
  · rw [hl]
    simp [texts, dropSpacesQuotes, hs]
  · rw [hl]
    simp only [texts, List.append_nil, List.drop_succ_cons]
    rw [dropSpacesQuotes_quote hq]
    have hd : rest.drop ((rest.takeWhile fun x => x != c).length + 1) =
        (rest.dropWhile fun x => x != c).drop 1 := by
      rw [← drop_length_takeWhile, List.drop_drop, Nat.add_comm]
    rw [hd]
    conv_rhs => rw [← List.takeWhile_append_dropWhile (fun x => x != c) rest]
    rw [dropSpacesQuotes_append]
    congr 1
    cases hdw : rest.dropWhile (fun x => x != c) with
    | nil => rfl
    | cons d tl =>
      have hdc := dropWhile_head_not hdw
      have : d = c := by simpa using hdc
      subst this
      rw [List.drop_succ_cons, List.drop_zero, dropSpacesQuotes_quote hq]

/-- The loop on any input: what it returns reads, once whitespace and quotes
are removed, as the texts it started with followed by the input from the
cursor on. -/
theorem tokenizeLoop_dropSpacesQuotes (input : List Char) (fuel : Nat) :
    ∀ (pos : Nat) (tokens out : List Token),
      tokenizeLoop input fuel pos tokens = Outcome.returned out →
      dropSpacesQuotes (texts out) =
        dropSpacesQuotes (texts tokens) ++ dropSpacesQuotes (input.drop pos) := by
  induction fuel with
  | zero =>
    intro pos tokens out h
    by_cases hlt : pos < input.length
    · simp [tokenizeLoop, hlt] at h
    · have hle := Nat.le_of_not_lt hlt
      rw [tokenizeLoop_done hle] at h
      cases h
      simp [List.drop_eq_nil_of_le hle, dropSpacesQuotes]
  | succ fuel ih =>
    intro pos tokens out h
    by_cases hlt : pos < input.length
    · rw [tokenizeLoop_succ hlt] at h
      have h1 := ih _ _ _ h
      have c1 := lexAt_dropSpacesQuotes input[pos] (input.drop (pos + 1))
      rw [← drop_eq_cons hlt] at c1
      rw [h1, texts_append, dropSpacesQuotes_append, List.append_assoc, ← List.drop_drop, c1]
    · have hle := Nat.le_of_not_lt hlt
      rw [tokenizeLoop_done hle] at h
      cases h
      simp [List.drop_eq_nil_of_le hle, dropSpacesQuotes]

/-- The tokens of an iteration that moves the cursor are slices of the rest of
the input, and only a `STRING` token has an empty text. -/
theorem lexAt_slice (c : Char) (rest : List Char) (hn : (lexAt (c :: rest)).1 ≠ 0) :
    ∀ t ∈ (lexAt (c :: rest)).2,
      t.value <:+: (c :: rest) ∧ (t.type ≠ TokenType.STRING → t.value ≠ []) := by
  intro t ht
  rcases lexAt_shape c rest with ⟨t2, h2, hv, hty⟩ | ⟨_, hl⟩ | ⟨_, hl⟩
  · rw [h2, List.mem_singleton] at ht
    subst ht
    refine ⟨?_, fun _ => ?_⟩
    · rw [hv]; exact (List.take_prefix _ _).isInfix
    · rw [hv]
      obtain ⟨m, hm⟩ : ∃ m, (lexAt (c :: rest)).1 = m + 1 :=
        ⟨(lexAt (c :: rest)).1 - 1, by omega⟩
      rw [hm, List.take_succ_cons]
      exact List.cons_ne_nil _ _
  · rw [hl] at ht; cases ht
  · rw [hl, List.mem_singleton] at ht
    subst ht
    refine ⟨?_, fun h => absurd rfl h⟩
    exact ⟨[c], rest.dropWhile fun x => x != c, by
      simp [List.takeWhile_append_dropWhile]⟩

theorem takeWhile_takeWhile_self (p : Char → Bool) (l : List Char) :
    (l.takeWhile p).takeWhile p = l.takeWhile p :=
  takeWhile_all (fun _ hx => List.mem_takeWhile_imp hx)

theorem takeWhile_cons_length_ne_zero {p : Char → Bool} {c : Char} {rest : List Char}
    (h : ((c :: rest).takeWhile p).length ≠ 0) :
    p c = true ∧ (c :: rest).takeWhile p = c :: rest.takeWhile p ∧
      (c :: rest.takeWhile p).takeWhile p = c :: rest.takeWhile p := by
  by_cases hp : p c = true
  · refine ⟨hp, List.takeWhile_cons_of_pos hp, ?_⟩
    rw [List.takeWhile_cons_of_pos hp, takeWhile_takeWhile_self]
  · rw [List.takeWhile_cons_of_neg hp] at h
    exact absurd rfl h

/-- The tokens of an iteration that moves the cursor, `STRING` and `COMMENT`
tokens apart, are what `tokenize` makes of their own text. -/
theorem lexAt_roundtrip (c : Char) (rest : List Char) (hn : (lexAt (c :: rest)).1 ≠ 0) :
    ∀ t ∈ (lexAt (c :: rest)).2, t.type ≠ TokenType.STRING → t.type ≠ TokenType.COMMENT →
      tokenize t.value = Outcome.returned [t] := by
  intro t ht hs hcm
  simp only [lexAt] at ht hn
  split_ifs at ht hn with h1 h2 h3 h4 h5 h6 h7 h8 h9
  · simp only [List.mem_singleton] at ht
    subst ht
    exact absurd rfl hcm
  · simp only [List.mem_singleton] at ht
    subst ht
    have hb : (rest.takeWhile fun x => isalnum x || x == '_').takeWhile
        (fun x => isalnum x || x == '_') = rest.takeWhile fun x => isalnum x || x == '_' :=
      takeWhile_takeWhile_self _ _
    have hlex : lexAt (c :: rest.takeWhile fun x => isalnum x || x == '_') =
        ((rest.takeWhile fun x => isalnum x || x == '_').length + 1,
         [⟨wordType (c :: rest.takeWhile fun x => isalnum x || x == '_'),
           c :: rest.takeWhile fun x => isalnum x || x == '_'⟩]) := by
      simp only [lexAt, if_neg h1, if_pos h2, hb]
    dsimp only
    rw [tokenize_single (List.cons_ne_nil _ _) (by rw [hlex]; simp), hlex]
  · simp only [List.mem_singleton] at ht
    subst ht
    have hb : (rest.takeWhile fun x => isdigit x || x == '.').takeWhile
        (fun x => isdigit x || x == '.') = rest.takeWhile fun x => isdigit x || x == '.' :=
      takeWhile_takeWhile_self _ _
    have hlex : lexAt (c :: rest.takeWhile fun x => isdigit x || x == '.') =
        ((rest.takeWhile fun x => isdigit x || x == '.').length + 1,
         [⟨TokenType.NUMBER, c :: rest.takeWhile fun x => isdigit x || x == '.'⟩]) := by
      simp only [lexAt, if_neg h1, if_neg h2, if_pos h3, hb]
    dsimp only
    rw [tokenize_single (List.cons_ne_nil _ _) (by rw [hlex]; simp), hlex]
  · simp only [List.mem_singleton] at ht
    subst ht
    exact absurd rfl hs
  · simp only [List.mem_singleton] at ht
    subst ht
    subst h6
    decide
  · simp only [List.mem_singleton] at ht
    subst ht
    subst h7
    decide
  · simp only [List.mem_singleton] at ht
    subst ht
    have hlex : lexAt [c] = (1, [⟨TokenType.DELIMITER, [c]⟩]) := by
      simp only [lexAt, if_neg h1, if_neg h2, if_neg h3, if_neg h4, if_pos h5, if_neg h6,
        if_neg h7]
    dsimp only
    rw [tokenize_single (List.cons_ne_nil _ _) (by rw [hlex]; simp), hlex]
  · simp only [List.mem_singleton] at ht
    subst ht
    have hlex : lexAt [c] = (1, [⟨TokenType.PUNCTUATION, [c]⟩]) := by
      simp only [lexAt, if_neg h1, if_neg h2, if_neg h3, if_neg h4, if_neg h5, if_pos h8]
    dsimp only
    rw [tokenize_single (List.cons_ne_nil _ _) (by rw [hlex]; simp), hlex]
  · cases ht
  · dsimp only at hn ht
    obtain ⟨hpc0, hrun, hrun2⟩ := takeWhile_cons_length_ne_zero hn
    have hpc : (strchr operatorChars c || c == '.') = true := hpc0
    rw [hrun] at ht
    simp only [List.mem_singleton] at ht
    subst ht
    have hlex : lexAt (c :: rest.takeWhile fun x => strchr operatorChars x || x == '.') =
        ((rest.takeWhile fun x => strchr operatorChars x || x == '.').length + 1,
         [⟨TokenType.OPERATOR,
           c :: rest.takeWhile fun x => strchr operatorChars x || x == '.'⟩]) := by
      simp only [lexAt, if_neg h1, if_neg h2, if_neg h3, if_neg h4, if_neg h5, if_neg h8,
        if_neg h9, hrun2, List.length_cons]
    dsimp only
    rw [tokenize_single (List.cons_ne_nil _ _) (by rw [hlex]; simp), hlex]

theorem strchr_iff (l : List Char) (c : Char) :
    strchr l c = true ↔ c ∈ l ∨ c = nul := by
  simp [strchr, List.contains, List.elem_iff]

theorem strchr_nul (l : List Char) : strchr l nul = true := by
  simp [strchr]

theorem takeWhile_cons_length_ne_zero_iff {p : Char → Bool} {c : Char} {rest : List Char} :
    ((c :: rest).takeWhile p).length ≠ 0 ↔ p c = true := by
  by_cases hp : p c = true
  · simp [List.takeWhile_cons_of_pos hp, hp]
  · simp [List.takeWhile_cons_of_neg hp, hp]

/-- An iteration moves the cursor exactly when the character at the cursor is
one some branch of the loop is written for. -/
theorem lexAt_ne_zero_iff (c : Char) (rest : List Char) :
    (lexAt (c :: rest)).1 ≠ 0 ↔ classified c = true := by
  simp only [lexAt, classified]
  split_ifs with h1 h2 h3 h4 h5 h6 h7 h8 h9
  all_goals first
    | (simp only [ne_eq, Nat.add_one_ne_zero, not_false_eq_true, true_iff, Nat.succ_ne_zero,
        Bool.or_eq_true, beq_iff_eq, one_ne_zero] at *
       tauto)
    | skip
  have hnul : c ≠ nul := fun e => h5 (e ▸ strchr_nul _)
  have hdot : c ≠ '.' := fun e => h3 (by simp [e])
  dsimp only
  rw [takeWhile_cons_length_ne_zero_iff]
  simp only [Bool.or_eq_true, beq_iff_eq, strchr] at *
  tauto

theorem isspace_cases {c : Char} (h : isspace c = true) :
    c ∈ [' ', '\t', '\n', Char.ofNat 11, Char.ofNat 12, '\r'] := by
  have hc : c = Char.ofNat c.toNat := (Char.ofNat_toNat c).symm
  simp only [isspace, Bool.or_eq_true, Bool.and_eq_true, decide_eq_true_eq] at h
  have h6 : c.toNat = 32 ∨ c.toNat = 9 ∨ c.toNat = 10 ∨ c.toNat = 11 ∨ c.toNat = 12 ∨
      c.toNat = 13 := by omega
  rcases h6 with e | e | e | e | e | e <;> (rw [hc, e]; decide)

/-- An iteration on a whitespace character passes it and makes no token. -/
theorem lexAt_space {c : Char} (hs : isspace c = true) (rest : List Char) :
    lexAt (c :: rest) = (1, []) := by
  have h := isspace_cases hs
  simp only [List.mem_cons, List.mem_singleton, List.not_mem_nil, or_false] at h
  rcases h with h | h | h | h | h | h <;> subst h <;> rfl

/-- The loop returns when every iteration moves the cursor. -/
theorem tokenizeLoop_returns {input : List Char}
    (h : ∀ pos, pos < input.length → (lexAt (input.drop pos)).1 ≠ 0) (fuel : Nat) :
    ∀ (pos : Nat) (tokens : List Token), input.length ≤ pos + fuel →
      ∃ out, tokenizeLoop input fuel pos tokens = Outcome.returned out := by
  induction fuel with
  | zero =>
    intro pos tokens hle
    exact ⟨tokens, tokenizeLoop_done (by omega) 0 tokens⟩
  | succ fuel ih =>
    intro pos tokens hle
    by_cases hlt : pos < input.length
    · rw [tokenizeLoop_succ hlt]
      have := h pos hlt
      exact ih _ _ (by omega)
    · exact ⟨tokens, tokenizeLoop_done (Nat.le_of_not_lt hlt) _ tokens⟩

/-- The loop on whitespace only returns the tokens it started with. -/
theorem tokenizeLoop_spaces {input : List Char} (h : ∀ x ∈ input, isspace x = true)
    (fuel : Nat) :
    ∀ (pos : Nat) (tokens : List Token), input.length ≤ pos + fuel →
      tokenizeLoop input fuel pos tokens = Outcome.returned tokens := by
  induction fuel with
  | zero =>
    intro pos tokens hle
    exact tokenizeLoop_done (by omega) 0 tokens
  | succ fuel ih =>
    intro pos tokens hle
    by_cases hlt : pos < input.length
    · rw [tokenizeLoop_succ hlt, drop_eq_cons hlt,
        lexAt_space (h input[pos] (List.getElem_mem hlt))]
      simpa using ih (pos + 1) tokens (by omega)
    · exact tokenizeLoop_done (Nat.le_of_not_lt hlt) _ tokens

/-- The first character of an `OPERATOR` token of an iteration that moves the
cursor is a character of the operator literal. -/
theorem lexAt_operator_head (c : Char) (rest : List Char) (hn : (lexAt (c :: rest)).1 ≠ 0) :
    ∀ t ∈ (lexAt (c :: rest)).2, t.type = TokenType.OPERATOR →
      ∃ d tl, t.value = d :: tl ∧ d ∈ operatorChars := by
  intro t ht hty
  simp only [lexAt] at ht hn
  split_ifs at ht hn with h1 h2 h3 h4 h5 h6 h7 h8 h9
  all_goals first
    | (simp only [List.mem_singleton] at ht
       subst ht
       rcases wordType_cases (c :: rest.takeWhile fun x => isalnum x || x == '_') with h | h | h <;>
         rw [h] at hty <;> cases hty)
    | (simp only [List.mem_singleton] at ht
       subst ht
       cases hty
       done)
    | (cases ht; done)
    | skip
  dsimp only at hn ht
  obtain ⟨hpc, hrun, _⟩ := takeWhile_cons_length_ne_zero hn
  rw [hrun] at ht
  simp only [List.mem_singleton] at ht
  subst ht
  refine ⟨c, _, rfl, ?_⟩
  have hnul : c ≠ nul := fun e => h5 (e ▸ strchr_nul _)
  have hdot : c ≠ '.' := fun e => h3 (by simp [e])
  simp only [Bool.or_eq_true, beq_iff_eq, strchr_iff] at hpc
  tauto
theorem lt_length_of_getD_ne_nul {input : List Char} {pos : Nat}
    (h : input.getD pos nul ≠ nul) : pos < input.length := by
  by_contra hlt
  exact h (List.getD_eq_default _ _ (Nat.le_of_not_lt hlt))

/-- The kinds made by the bracket branch, on an iteration that moves the
cursor: `START` has text `{`, `END` has text `}`, and `DELIMITER` has a
one-character text, one of `(`, `)`, `[`, `]` or NUL. -/
theorem lexAt_bracket_kinds (c : Char) (rest : List Char) :
    ∀ t ∈ (lexAt (c :: rest)).2,
      (t.type = TokenType.START → t.value = ['\x7b']) ∧
      (t.type = TokenType.END → t.value = ['\x7d']) ∧
      (t.type = TokenType.DELIMITER →
        ∃ d, t.value = [d] ∧ (d ∈ "()[]".toList ∨ d = nul)) := by
  intro t ht
  simp only [lexAt] at ht
  split_ifs at ht with h1 h2 h3 h4 h5 h6 h7 h8 h9
  · simp only [List.mem_singleton] at ht
    subst ht
    exact ⟨(fun h => by cases h), (fun h => by cases h), (fun h => by cases h)⟩
  · simp only [List.mem_singleton] at ht
    subst ht
    rcases wordType_cases (c :: rest.takeWhile fun x => isalnum x || x == '_') with h | h | h <;>
      (refine ⟨?_, ?_, ?_⟩ <;> intro hty <;> rw [h] at hty <;> cases hty)
  · simp only [List.mem_singleton] at ht
    subst ht
    exact ⟨(fun h => by cases h), (fun h => by cases h), (fun h => by cases h)⟩
  · simp only [List.mem_singleton] at ht
    subst ht
    exact ⟨(fun h => by cases h), (fun h => by cases h), (fun h => by cases h)⟩
  · simp only [List.mem_singleton] at ht
    subst ht
    subst h6
    exact ⟨fun _ => rfl, (fun h => by cases h), (fun h => by cases h)⟩
  · simp only [List.mem_singleton] at ht
    subst ht
    subst h7
    exact ⟨(fun h => by cases h), fun _ => rfl, (fun h => by cases h)⟩
  · simp only [List.mem_singleton] at ht
    subst ht
    refine ⟨(fun hty => by cases hty), (fun hty => by cases hty), fun _ => ⟨c, rfl, ?_⟩⟩
    have hc := (strchr_iff _ _).mp h5
    simp only [delimiterChars, String.toList, List.mem_cons, List.mem_singleton,
      List.not_mem_nil, or_false] at hc ⊢
    tauto
  · simp only [List.mem_singleton] at ht
    subst ht
    exact ⟨(fun h => by cases h), (fun h => by cases h), (fun h => by cases h)⟩
  · cases ht
  · simp only [List.mem_singleton] at ht
    subst ht
    exact ⟨(fun h => by cases h), (fun h => by cases h), (fun h => by cases h)⟩
/-! ## The claims -/

/-- C1 (fails on the code): on the one-character input `@` the scan loop never
finishes. Whatever the number of iterations allowed, the loop condition still
holds afterwards, so `tokenize` returns no token sequence for this input. -/
theorem tokenize_at_sign_never_finishes :
    ∀ fuel : Nat, tokenizeLoop "@".toList fuel 0 [] = Outcome.unfinished :=
  fun fuel => tokenizeLoop_stall (by decide) (by decide) fuel []

/-- C2: the sample declaration `fn foo(a: int): int { return a }` gives
exactly the thirteen tokens of the specification, in order (`TYPE` is the
specification's `TypeName`, `START` and `END` its `BlockStart` and
`BlockEnd`). -/
theorem tokenize_sample_declaration :
    tokenize "fn foo(a: int): int \x7b return a \x7d".toList = Outcome.returned
      [tok .KEYWORD "fn", tok .IDENTIFIER "foo", tok .DELIMITER "(", tok .IDENTIFIER "a",
       tok .PUNCTUATION ":", tok .TYPE "int", tok .DELIMITER ")", tok .PUNCTUATION ":",
       tok .TYPE "int", tok .START "\x7b", tok .KEYWORD "return", tok .IDENTIFIER "a",
       tok .END "\x7d"] := by
  decide

/-- C3: a word (an ASCII letter followed by ASCII letters, digits and
underscores) is one token whose text is the whole word; its kind is `KEYWORD`
for the eighteen keywords, `TYPE` for the seven type names and `IDENTIFIER`
for every other word. The lookup is exact: `If`, `iffy` and `int_` are
identifiers. -/
theorem tokenize_word :
    (∀ (c : Char) (rest : List Char), isalpha c = true →
      (∀ x ∈ rest, isalnum x = true ∨ x = '_') →
      tokenize (c :: rest) = Outcome.returned
        [⟨if c :: rest ∈ ["fn", "class", "return", "if", "else", "while", "for", "switch",
              "case", "default", "do", "with", "try", "except", "in", "not", "and",
              "or"].map String.toList then TokenType.KEYWORD
          else if c :: rest ∈ ["int", "float", "str", "bool", "tuple", "list",
              "dict"].map String.toList then TokenType.TYPE
          else TokenType.IDENTIFIER, c :: rest⟩]) ∧
    tokenize "If".toList = Outcome.returned [tok .IDENTIFIER "If"] ∧
    tokenize "iffy".toList = Outcome.returned [tok .IDENTIFIER "iffy"] ∧
    tokenize "int_".toList = Outcome.returned [tok .IDENTIFIER "int_"] := by
  refine ⟨?_, by decide, by decide, by decide⟩
  intro c rest hc hrest
  have hbody : rest.takeWhile (fun x => isalnum x || x == '_') = rest :=
    takeWhile_all (fun x hx => by rcases hrest x hx with h | h <;> simp [h])
  have hlex : lexAt (c :: rest) =
      (rest.length + 1, [⟨wordType (c :: rest), c :: rest⟩]) := by
    simp only [lexAt, if_neg (isalpha_ne_hash hc), hc, if_true, hbody]
  rw [tokenize_single (List.cons_ne_nil _ _) (by rw [hlex]; simp), hlex]
  simp only [wordType, keywords, types, List.contains, List.elem_iff]

/-- C3 at the keyword `while` and at the identifier `while_1`. -/
theorem tokenize_word_witness :
    tokenize "while".toList = Outcome.returned [tok .KEYWORD "while"] ∧
    tokenize "while_1".toList = Outcome.returned [tok .IDENTIFIER "while_1"] :=
  ⟨tokenize_word.1 'w' "hile".toList (by decide) (by decide),
   tokenize_word.1 'w' "hile_1".toList (by decide) (by decide)⟩

/-- C4 (fails on the code): the operator loop tests its characters with
`strchr`, which also finds the NUL that ends the literal `"+-*/%^&|!<>=~"`. On
the two-character input `+`, NUL the loop therefore takes the NUL into the
`OPERATOR` token, although NUL is not a character of the operator class. -/
theorem operator_run_takes_nul :
    tokenize ['+', nul] = Outcome.returned [⟨TokenType.OPERATOR, ['+', nul]⟩] ∧
    nul ∉ "+-*/%^&|!<>=~.".toList := by
  decide

/-- What the operator fallback does on every input: with the cursor on one of
the characters of `"+-*/%^&|!<>=~"`, an iteration appends one `OPERATOR` token
whose text is the longest run, from the cursor on, of characters that `strchr`
finds in that literal (its characters and NUL) or that are `.`; the text is
not empty and the cursor ends right after it. -/
theorem operator_fallback_run (input : List Char) (pos : Nat) (tokens : List Token)
    (hlt : pos < input.length) (hc : input.getD pos nul ∈ operatorChars) :
    step input pos tokens =
        some (pos + ((input.drop pos).takeWhile
                fun x => strchr operatorChars x || x == '.').length,
              tokens ++ [⟨TokenType.OPERATOR,
                (input.drop pos).takeWhile fun x => strchr operatorChars x || x == '.'⟩]) ∧
      (input.drop pos).takeWhile (fun x => strchr operatorChars x || x == '.') ≠ [] := by
  have hd : input.drop pos = input[pos] :: input.drop (pos + 1) := List.drop_eq_getElem_cons hlt
  rw [List.getD_eq_getElem _ _ hlt] at hc
  generalize input[pos] = c at hd hc
  have hcases : c ∈ operatorChars → (c ≠ '#' ∧ isalpha c = false ∧
      (isdigit c || c == '.') = false ∧ (c == dquote || c == squote) = false ∧
      strchr delimiterChars c = false ∧ strchr punctuationChars c = false ∧
      isspace c = false ∧ strchr operatorChars c = true) := by
    intro h
    simp only [operatorChars, String.toList, List.mem_cons, List.mem_singleton,
      List.not_mem_nil, or_false] at h
    rcases h with h | h | h | h | h | h | h | h | h | h | h | h | h <;> subst h <;> decide
  obtain ⟨h1, h2, h3, h4, h5, h6, h7, h8⟩ := hcases hc
  refine ⟨?_, ?_⟩
  · rw [step_eq_lexAt hlt, hd]
    simp [lexAt, h1, h2, h3, h4, h5, h6, h7]
  · rw [hd, List.takeWhile_cons_of_pos (by simp [h8])]
    exact List.cons_ne_nil _ _

/-- The one-character inputs with code below 128 on which `tokenize` never
finishes: 33 of the 128. -/
theorem single_bytes_never_finishing :
    (List.range 128).filter
        (fun n => decide (tokenize [Char.ofNat n] = Outcome.unfinished)) =
      [1, 2, 3, 4, 5, 6, 7, 8, 14, 15, 16, 17, 18, 19, 20, 21, 22, 23, 24, 25, 26, 27, 28,
       29, 30, 31, 36, 63, 64, 92, 95, 96, 127] := by
  decide

/-- The specification's sample `a += b`: identifier, operator, identifier. -/
theorem tokenize_plus_assign :
    tokenize "a += b".toList = Outcome.returned
      [tok .IDENTIFIER "a", tok .OPERATOR "+=", tok .IDENTIFIER "b"] := by
  decide

/-- C5: an iteration that starts on `#` appends one `COMMENT` token. Its text
starts with that `#`, is the slice of the input at the cursor, and holds no
newline; the cursor ends right after the text, at the end of the input or on
a newline. The sample `# note`, newline, `x` gives a comment and an
identifier. -/
theorem comment_runs_to_end_of_line :
    (∀ (input : List Char) (pos : Nat) (tokens : List Token),
      pos < input.length → input.getD pos nul = '#' →
      ∃ (text : List Char) (p : Nat),
        step input pos tokens = some (p, tokens ++ [⟨TokenType.COMMENT, text⟩]) ∧
        text.head? = some '#' ∧
        newline ∉ text ∧
        p = pos + text.length ∧
        input.drop pos = text ++ input.drop p ∧
        p ≤ input.length ∧
        (p < input.length → input.getD p nul = newline)) ∧
    tokenize "# note\nx".toList = Outcome.returned
      [tok .COMMENT "# note", tok .IDENTIFIER "x"] := by
  refine ⟨?_, by decide⟩
  intro input pos tokens hlt hc
  have hd : input.drop pos = '#' :: input.drop (pos + 1) := by
    rw [List.drop_eq_getElem_cons hlt, ← hc, List.getD_eq_getElem _ _ hlt]
  generalize input.drop (pos + 1) = rest at hd
  have hsplit := List.takeWhile_append_dropWhile (fun x => x != newline) rest
  have hdrop : input.drop (pos + ((rest.takeWhile fun x => x != newline).length + 1)) =
      rest.dropWhile fun x => x != newline := by
    rw [drop_add_of_drop hd, drop_length_takeWhile]
  have hlen : input.length = pos + (rest.length + 1) := by
    have := congrArg List.length hd
    simp only [List.length_drop, List.length_cons] at this
    omega
  refine ⟨'#' :: rest.takeWhile (fun x => x != newline),
    pos + ((rest.takeWhile fun x => x != newline).length + 1), ?_, rfl, ?_, rfl, ?_, ?_, ?_⟩
  · rw [step_eq_lexAt hlt, hd]
    simp [lexAt]
  · intro hmem
    rcases List.mem_cons.mp hmem with h | h
    · revert h; decide
    · have := List.mem_takeWhile_imp h
      simp at this
  · rw [hd, hdrop, List.cons_append, hsplit]
  · have := congrArg List.length hsplit
    simp only [List.length_append] at this
    omega
  · intro hp
    have hne : input.drop (pos + ((rest.takeWhile fun x => x != newline).length + 1)) ≠ [] := by
      intro e
      have := congrArg List.length e
      simp only [List.length_drop, List.length_nil] at this
      omega
    rw [hdrop] at hne
    obtain ⟨d, tl, hdt⟩ := List.exists_cons_of_ne_nil hne
    have hd2 := dropWhile_head_not hdt
    rw [← hdrop] at hdt
    rw [getD_of_drop hdt]
    simpa using hd2

/-- C5 at the input `x #a b`, newline, `y`, with the cursor on the `#`. -/
theorem comment_runs_to_end_of_line_witness :
    ∃ (text : List Char) (p : Nat),
      step "x #a b\ny".toList 2 [] = some (p, [] ++ [⟨TokenType.COMMENT, text⟩]) ∧
      text.head? = some '#' ∧
      newline ∉ text ∧
      p = 2 + text.length ∧
      "x #a b\ny".toList.drop 2 = text ++ "x #a b\ny".toList.drop p ∧
      p ≤ "x #a b\ny".toList.length ∧
      (p < "x #a b\ny".toList.length → "x #a b\ny".toList.getD p nul = newline) :=
  comment_runs_to_end_of_line.1 "x #a b\ny".toList 2 [] (by decide) (by decide)

/-- C6: a string literal closed by the quote character that opens it, with no
such quote in between, is one `STRING` token whose text is what stands between
the two quotes, unchanged; the loop is left, so the closing quote is taken.
The input `"hi"` (four characters) gives `STRING` with text `hi`. -/
theorem tokenize_string_literal :
    (∀ (q : Char) (s : List Char), q = dquote ∨ q = squote → q ∉ s →
      tokenize (q :: s ++ [q]) = Outcome.returned [⟨TokenType.STRING, s⟩]) ∧
    tokenize (dquote :: "hi".toList ++ [dquote]) = Outcome.returned [tok .STRING "hi"] := by
  refine ⟨?_, by decide⟩
  intro q s hq hs
  have hlex : lexAt (q :: s ++ [q]) = (s.length + 2, [⟨TokenType.STRING, s⟩]) := by
    rw [List.cons_append, lexAt_quote hq, takeWhile_ne_of_not_mem hs]
  rw [tokenize_single (by simp) (by rw [hlex]; simp), hlex]

/-- C6 at the single-quoted literal around `a "b" c` and at the empty
double-quoted literal. -/
theorem tokenize_string_literal_witness :
    tokenize (squote :: (['a', ' ', dquote, 'b', dquote, newline, 'c'] ++ [squote])) =
      Outcome.returned [⟨TokenType.STRING, ['a', ' ', dquote, 'b', dquote, newline, 'c']⟩] ∧
    tokenize (dquote :: ([] ++ [dquote])) = Outcome.returned [⟨TokenType.STRING, []⟩] :=
  ⟨tokenize_string_literal.1 squote ['a', ' ', dquote, 'b', dquote, newline, 'c']
      (Or.inr rfl) (by decide),
   tokenize_string_literal.1 dquote [] (Or.inl rfl) (by decide)⟩

/-- C7: a string literal that is never closed is still one `STRING` token,
whose text is everything after the opening quote; the run returns (it neither
throws nor goes on for ever). A lone quote gives `STRING` with empty text. -/
theorem tokenize_unterminated_string :
    ∀ (q : Char) (s : List Char), q = dquote ∨ q = squote → q ∉ s →
      tokenize (q :: s) = Outcome.returned [⟨TokenType.STRING, s⟩] := by
  intro q s hq hs
  have hlex : lexAt (q :: s) = (s.length + 2, [⟨TokenType.STRING, s⟩]) := by
    rw [lexAt_quote hq, takeWhile_ne_self_of_not_mem hs]
  rw [tokenize_single (by simp) (by rw [hlex]; simp), hlex]

/-- C7 at a lone single quote and at the unclosed double-quoted `ab c`. -/
theorem tokenize_unterminated_string_witness :
    tokenize [squote] = Outcome.returned [⟨TokenType.STRING, []⟩] ∧
    tokenize (dquote :: "ab c".toList) = Outcome.returned [tok .STRING "ab c"] :=
  ⟨tokenize_unterminated_string squote [] (Or.inr rfl) (by decide),
   tokenize_unterminated_string dquote "ab c".toList (Or.inl rfl) (by decide)⟩

/-- C8: a non-empty input made of ASCII digits and dots only is one `NUMBER`
token whose text is the whole input, whatever its form: `3.14.15` and a lone
`.` are numbers. -/
theorem tokenize_number :
    (∀ n : List Char, n ≠ [] → (∀ x ∈ n, isdigit x = true ∨ x = '.') →
      tokenize n = Outcome.returned [⟨TokenType.NUMBER, n⟩]) ∧
    tokenize "3.14.15".toList = Outcome.returned [tok .NUMBER "3.14.15"] ∧
    tokenize ".".toList = Outcome.returned [tok .NUMBER "."] := by
  refine ⟨?_, by decide, by decide⟩
  intro n hne hall
  obtain ⟨c, rest, rfl⟩ := List.exists_cons_of_ne_nil hne
  have hc := hall c (List.mem_cons_self _ _)
  have hbody : rest.takeWhile (fun x => isdigit x || x == '.') = rest :=
    takeWhile_all (fun x hx => by
      rcases hall x (List.mem_cons_of_mem _ hx) with h | h <;> simp [h])
  have hc2 : (isdigit c || c == '.') = true := by rcases hc with h | h <;> simp [h]
  have hlex : lexAt (c :: rest) = (rest.length + 1, [⟨TokenType.NUMBER, c :: rest⟩]) := by
    simp only [lexAt, if_neg (isdigit_or_dot_ne_hash hc), isdigit_or_dot_not_isalpha hc,
      hc2, if_true, hbody]
    simp
  rw [tokenize_single (List.cons_ne_nil _ _) (by rw [hlex]; simp), hlex]

/-- C8 at the input `..7.`. -/
theorem tokenize_number_witness :
    tokenize "..7.".toList = Outcome.returned [tok .NUMBER "..7."] :=
  tokenize_number.1 "..7.".toList (by decide) (by decide)

/-- C9 (fails on the code): on the character `@`, which is in none of the
scanner's classes, an iteration appends an `OPERATOR` token with empty text
and leaves the cursor at 0. No `UNKNOWN` token is made and the character is
not passed, so `tokenize` does not return on the input `@`. -/
theorem step_at_sign_stalls :
    step "@".toList 0 [] = some (0, [⟨TokenType.OPERATOR, []⟩]) ∧
    tokenize "@".toList = Outcome.unfinished := by
  decide

/-- C10 (fails as stated): the double-quoted literal around `a b` is one
`STRING` token with text `a b`. The texts of the returned tokens are then
`a b`, not the input without its whitespace (which keeps both quotes and loses
the space), and a whitespace character lies in a token's text. The comment
`#a b` likewise keeps its space in the one `COMMENT` token it gives. -/
theorem texts_of_string_literal_differ :
    tokenize (dquote :: "a b".toList ++ [dquote]) = Outcome.returned [tok .STRING "a b"] ∧
    texts [tok .STRING "a b"] ≠ dropSpaces (dquote :: "a b".toList ++ [dquote]) ∧
    (∃ x ∈ (tok .STRING "a b").value, isspace x = true) ∧
    tokenize "#a b".toList = Outcome.returned [tok .COMMENT "#a b"] ∧
    texts [tok .COMMENT "#a b"] ≠ dropSpaces "#a b".toList := by
  decide

/-- C10, amended: on an input with no `#` and no quote character (so with no
comment and no string literal), whenever `tokenize` returns, the texts of the
returned tokens, one after the other, are the input with its whitespace
characters removed, and no whitespace character lies in any token's text. -/
theorem texts_cover_input_without_literals (input : List Char) (out : List Token)
    (hin : ∀ x ∈ input, x ≠ '#' ∧ x ≠ dquote ∧ x ≠ squote)
    (h : tokenize input = Outcome.returned out) :
    texts out = dropSpaces input ∧ ∀ t ∈ out, ∀ x ∈ t.value, isspace x = false := by
  have hin2 : ∀ x ∈ input, x ≠ '#' ∧ (x == dquote || x == squote) = false := by
    intro x hx
    obtain ⟨a, b, c⟩ := hin x hx
    exact ⟨a, by simp [b, c]⟩
  obtain ⟨h1, h2⟩ := tokenizeLoop_cover hin2 input.length 0 [] out h
  refine ⟨by simpa [texts] using h1, h2 ?_⟩
  intro t ht
  cases ht

/-- C10, amended, at the input `a += (b1 , 2.5)` followed by a newline. -/
theorem texts_cover_input_without_literals_witness :
    texts [tok .IDENTIFIER "a", tok .OPERATOR "+=", tok .DELIMITER "(", tok .IDENTIFIER "b1",
        tok .PUNCTUATION ",", tok .NUMBER "2.5", tok .DELIMITER ")"] =
      dropSpaces "a += (b1 , 2.5)\n".toList ∧
    ∀ t ∈ [tok .IDENTIFIER "a", tok .OPERATOR "+=", tok .DELIMITER "(", tok .IDENTIFIER "b1",
        tok .PUNCTUATION ",", tok .NUMBER "2.5", tok .DELIMITER ")"],
      ∀ x ∈ t.value, isspace x = false :=
  texts_cover_input_without_literals "a += (b1 , 2.5)\n".toList _ (by decide) (by decide)

/-- C11: whenever `tokenize` returns, every returned token that is neither a
`STRING` nor a `COMMENT` is stable: `tokenize` applied to the token's text
alone returns exactly one token, and it is that very token (so of the same
kind, with the same text). -/
theorem retokenize_token_text (input : List Char) (out : List Token)
    (h : tokenize input = Outcome.returned out) :
    ∀ t ∈ out, t.type ≠ TokenType.STRING → t.type ≠ TokenType.COMMENT →
      tokenize t.value = Outcome.returned [t] := by
  refine tokenize_forall (fun t => t.type ≠ TokenType.STRING → t.type ≠ TokenType.COMMENT →
    tokenize t.value = Outcome.returned [t]) input ?_ h
  intro pos hlt hn t ht
  rw [drop_eq_cons hlt] at hn ht
  exact lexAt_roundtrip _ _ hn t ht

/-- C11 at the operator of `a +=.5`, whose text `+=.` is an operator again. -/
theorem retokenize_token_text_witness :
    tokenize "+=.".toList = Outcome.returned [tok .OPERATOR "+=."] :=
  retokenize_token_text "a +=.5".toList
    [tok .IDENTIFIER "a", tok .OPERATOR "+=.", tok .NUMBER "5"] (by decide)
    (tok .OPERATOR "+=.") (by decide) (by decide) (by decide)

/-- C12: every token that `tokenize` returns has a text that is a contiguous
slice of the input (the input is some characters, then the text, then some
characters), and the text is not empty unless the token is a `STRING`. -/
theorem token_texts_are_slices (input : List Char) (out : List Token)
    (h : tokenize input = Outcome.returned out) :
    ∀ t ∈ out, (∃ before after, input = before ++ t.value ++ after) ∧
      (t.type ≠ TokenType.STRING → t.value ≠ []) := by
  have key : ∀ t ∈ out, t.value <:+: input ∧ (t.type ≠ TokenType.STRING → t.value ≠ []) := by
    refine tokenize_forall (fun t => t.value <:+: input ∧
      (t.type ≠ TokenType.STRING → t.value ≠ [])) input ?_ h
    intro pos hlt hn t ht
    rw [drop_eq_cons hlt] at hn ht
    obtain ⟨h1, h2⟩ := lexAt_slice _ _ hn t ht
    rw [← drop_eq_cons hlt] at h1
    exact ⟨h1.trans (List.drop_suffix _ _).isInfix, h2⟩
  intro t ht
  obtain ⟨⟨before, after, e⟩, h2⟩ := key t ht
  exact ⟨⟨before, after, e.symm⟩, h2⟩

/-- C12 at the input `ab ""`, for its identifier and for its empty string
literal. -/
theorem token_texts_are_slices_witness :
    ((∃ before after,
        'a' :: 'b' :: ' ' :: dquote :: [dquote] =
          before ++ (tok .IDENTIFIER "ab").value ++ after) ∧
      ((tok .IDENTIFIER "ab").type ≠ TokenType.STRING → (tok .IDENTIFIER "ab").value ≠ [])) ∧
    (∃ before after,
        'a' :: 'b' :: ' ' :: dquote :: [dquote] =
          before ++ (⟨TokenType.STRING, []⟩ : Token).value ++ after) :=
  ⟨token_texts_are_slices ('a' :: 'b' :: ' ' :: dquote :: [dquote])
      [tok .IDENTIFIER "ab", ⟨TokenType.STRING, []⟩] (by decide) (tok .IDENTIFIER "ab")
      (by decide),
   (token_texts_are_slices ('a' :: 'b' :: ' ' :: dquote :: [dquote])
      [tok .IDENTIFIER "ab", ⟨TokenType.STRING, []⟩] (by decide) ⟨TokenType.STRING, []⟩
      (by decide)).1⟩

/-- C13 (fails on the code): in the input `x ?` the cursor position 2 is below
the input length 3, and the iteration that starts there, on `?`, leaves the
cursor at 2: it only appends an `OPERATOR` token with empty text. -/
theorem step_question_mark_keeps_cursor :
    2 < "x ?".toList.length ∧
    step "x ?".toList 2 [tok .IDENTIFIER "x"] =
      some (2, [tok .IDENTIFIER "x", ⟨TokenType.OPERATOR, []⟩]) := by
  decide

/-- What holds of the cursor on every input: an iteration started below the
input length never moves the cursor back, and moves it forward exactly when
the character at the cursor is one some branch of the loop is written for. -/
theorem step_cursor (input : List Char) (pos : Nat) (tokens : List Token)
    (hlt : pos < input.length) :
    ∃ p t, step input pos tokens = some (p, t) ∧ pos ≤ p ∧
      (pos < p ↔ classified (input.getD pos nul) = true) := by
  refine ⟨_, _, step_eq_lexAt hlt tokens, Nat.le_add_right _ _, ?_⟩
  rw [List.getD_eq_getElem _ _ hlt, ← lexAt_ne_zero_iff input[pos] (input.drop (pos + 1)),
    ← drop_eq_cons hlt]
  omega

/-- C14: an iteration that starts on one of the nine characters
`(` `)` `[` `]` `{` `}` `:` `,` `;` appends exactly one token, whose text is
that character, and moves the cursor by one. The kind is `START` for `{`,
`END` for `}`, `DELIMITER` for the four other brackets and `PUNCTUATION` for
`:` `,` `;`. -/
theorem bracket_and_punctuation_step (input : List Char) (pos : Nat) (tokens : List Token) :
    (input.getD pos nul = '\x7b' →
      step input pos tokens = some (pos + 1, tokens ++ [tok .START "\x7b"])) ∧
    (input.getD pos nul = '\x7d' →
      step input pos tokens = some (pos + 1, tokens ++ [tok .END "\x7d"])) ∧
    (input.getD pos nul ∈ "()[]".toList →
      step input pos tokens =
        some (pos + 1, tokens ++ [⟨TokenType.DELIMITER, [input.getD pos nul]⟩])) ∧
    (input.getD pos nul ∈ ":,;".toList →
      step input pos tokens =
        some (pos + 1, tokens ++ [⟨TokenType.PUNCTUATION, [input.getD pos nul]⟩])) := by
  refine ⟨?_, ?_, ?_, ?_⟩
  · intro h
    simp only [step, h]
    rfl
  · intro h
    simp only [step, h]
    rfl
  · intro h
    simp only [String.toList, List.mem_cons, List.mem_singleton, List.not_mem_nil,
      or_false] at h
    rcases h with h | h | h | h <;> (simp only [step, h]; rfl)
  · intro h
    simp only [String.toList, List.mem_cons, List.mem_singleton, List.not_mem_nil,
      or_false] at h
    rcases h with h | h | h <;> (simp only [step, h]; rfl)

/-- C14 at the input `f(x);`: the bracket at 1 and the semicolon at 4. -/
theorem bracket_and_punctuation_step_witness :
    step "f(x);".toList 1 [] =
      some (1 + 1, [] ++ [⟨TokenType.DELIMITER, ["f(x);".toList.getD 1 nul]⟩]) ∧
    step "f(x);".toList 4 [] =
      some (4 + 1, [] ++ [⟨TokenType.PUNCTUATION, ["f(x);".toList.getD 4 nul]⟩]) :=
  ⟨(bracket_and_punctuation_step "f(x);".toList 1 []).2.2.1 (by decide),
   (bracket_and_punctuation_step "f(x);".toList 4 []).2.2.2 (by decide)⟩

/-- C15: an iteration that starts on a space, a tab, a newline or a carriage
return moves the cursor by one and appends no token; and on an input made of
these four characters only, the empty input included, `tokenize` returns no
token. -/
theorem whitespace_is_skipped :
    (∀ (input : List Char) (pos : Nat) (tokens : List Token),
      input.getD pos nul ∈ [' ', '\t', '\n', '\r'] →
      step input pos tokens = some (pos + 1, tokens)) ∧
    (∀ input : List Char, (∀ x ∈ input, x ∈ [' ', '\t', '\n', '\r']) →
      tokenize input = Outcome.returned []) := by
  refine ⟨?_, ?_⟩
  · intro input pos tokens h
    simp only [List.mem_cons, List.mem_singleton, List.not_mem_nil, or_false] at h
    rcases h with h | h | h | h <;> (simp only [step, h]; rfl)
  · intro input h
    have hs : ∀ x ∈ [' ', '\t', '\n', '\r'], isspace x = true := by decide
    exact tokenizeLoop_spaces (fun x hx => hs x (h x hx)) input.length 0 [] (by omega)

/-- C15 at the tab of `a`, tab, `b`, and at the input space, newline, carriage
return, tab. -/
theorem whitespace_is_skipped_witness :
    step "a\tb".toList 1 [tok .IDENTIFIER "a"] = some (1 + 1, [tok .IDENTIFIER "a"]) ∧
    tokenize " \n\r\t".toList = Outcome.returned [] :=
  ⟨whitespace_is_skipped.1 "a\tb".toList 1 [tok .IDENTIFIER "a"] (by decide),
   whitespace_is_skipped.2 " \n\r\t".toList (by decide)⟩

/-- C16: the scan depends on the input only from the cursor on. A run of the
loop from cursor `pos` with `tokens` already made comes to what the run on the
rest of the input (`input.drop pos`) from a fresh start comes to, with
`tokens` in front: for every amount of fuel, and so for `tokenize` of the rest
of the input. And an iteration only appends to the token vector: what was
there before stays, unchanged, in front. -/
theorem tokens_depend_on_rest_of_input :
    (∀ (input : List Char) (pos : Nat) (tokens : List Token) (fuel : Nat),
      tokenizeLoop input fuel pos tokens =
        extendOutcome tokens (tokenizeLoop (input.drop pos) fuel 0 [])) ∧
    (∀ (input : List Char) (pos : Nat) (tokens : List Token),
      tokenizeLoop input (input.length - pos) pos tokens =
        extendOutcome tokens (tokenize (input.drop pos))) ∧
    (∀ (input : List Char) (pos : Nat) (tokens : List Token), pos < input.length →
      ∃ p emitted, step input pos tokens = some (p, tokens ++ emitted) ∧
        step input pos [] = some (p, emitted)) := by
  have first : ∀ (input : List Char) (pos : Nat) (tokens : List Token) (fuel : Nat),
      tokenizeLoop input fuel pos tokens =
        extendOutcome tokens (tokenizeLoop (input.drop pos) fuel 0 []) := by
    intro input pos tokens fuel
    simpa using tokenizeLoop_drop input pos tokens fuel 0 []
  refine ⟨first, ?_, ?_⟩
  · intro input pos tokens
    rw [first, tokenize, List.length_drop]
  · intro input pos tokens hlt
    exact ⟨_, _, step_eq_lexAt hlt tokens, by simpa using step_eq_lexAt hlt []⟩

/-- C16 at the input `a += b` with the cursor on the `+`. -/
theorem tokens_depend_on_rest_of_input_witness :
    ∃ p emitted,
      step "a += b".toList 2 [tok .IDENTIFIER "a"] =
        some (p, [tok .IDENTIFIER "a"] ++ emitted) ∧
      step "a += b".toList 2 [] = some (p, emitted) :=
  tokens_depend_on_rest_of_input.2.2 "a += b".toList 2 [tok .IDENTIFIER "a"] (by decide)

/-- C17 (fails on the code): the bracket test is `strchr("()[]{}", c)`, which
also finds the NUL that ends the literal. On the one-character input NUL
`tokenize` returns a `DELIMITER` token whose text is NUL, which is none of
`(`, `)`, `[`, `]`. -/
theorem nul_is_a_delimiter :
    tokenize [nul] = Outcome.returned [⟨TokenType.DELIMITER, [nul]⟩] ∧
    [nul] ∉ ["(", ")", "[", "]"].map String.toList := by
  decide

/-- What holds of the bracket kinds on every input: whenever `tokenize`
returns, a `START` token has text `{`, an `END` token has text `}`, and a
`DELIMITER` token has a one-character text, one of `(`, `)`, `[`, `]` or
NUL. -/
theorem bracket_kinds (input : List Char) (out : List Token)
    (h : tokenize input = Outcome.returned out) :
    ∀ t ∈ out,
      (t.type = TokenType.START → t.value = ['\x7b']) ∧
      (t.type = TokenType.END → t.value = ['\x7d']) ∧
      (t.type = TokenType.DELIMITER →
        ∃ d, t.value = [d] ∧ (d ∈ "()[]".toList ∨ d = nul)) := by
  refine tokenize_forall (fun t => (t.type = TokenType.START → t.value = ['\x7b']) ∧
      (t.type = TokenType.END → t.value = ['\x7d']) ∧
      (t.type = TokenType.DELIMITER →
        ∃ d, t.value = [d] ∧ (d ∈ "()[]".toList ∨ d = nul))) input ?_ h
  intro pos hlt _ t ht
  rw [drop_eq_cons hlt] at ht
  exact lexAt_bracket_kinds _ _ t ht

/-- C18: `tokenize` returns on every input made of ASCII letters, ASCII
digits, space, tab, newline, carriage return and the characters
`# . " ' ( ) [ ] { } : , ; + - * / % ^ & | ! < > = ~`. The underscore is not
one of them: alone it keeps `tokenize` from finishing, after a letter it is
part of the word. -/
theorem tokenize_returns_on_listed_characters :
    (∀ input : List Char,
      (∀ x ∈ input, isalpha x = true ∨ isdigit x = true ∨
        x ∈ [' ', '\t', '\n', '\r', '#', '.', dquote, squote, '(', ')', '[', ']',
             '\x7b', '\x7d', ':', ',', ';', '+', '-', '*', '/', '%', '^', '&', '|',
             '!', '<', '>', '=', '~']) →
      ∃ out, tokenize input = Outcome.returned out) ∧
    tokenize "_".toList = Outcome.unfinished ∧
    tokenize "a_".toList = Outcome.returned [tok .IDENTIFIER "a_"] := by
  refine ⟨?_, by decide, by decide⟩
  intro input h
  have hl : ∀ x ∈ [' ', '\t', '\n', '\r', '#', '.', dquote, squote, '(', ')', '[', ']',
      '\x7b', '\x7d', ':', ',', ';', '+', '-', '*', '/', '%', '^', '&', '|',
      '!', '<', '>', '=', '~'], classified x = true := by decide
  apply tokenizeLoop_returns _ input.length 0 [] (by omega)
  intro pos hlt
  rw [drop_eq_cons hlt, lexAt_ne_zero_iff]
  rcases h input[pos] (List.getElem_mem hlt) with ha | hd | hm
  · simp [classified, ha]
  · simp [classified, hd]
  · exact hl _ hm

/-- C18 at the input `if (a1 <= 'x') { b = "#"; }`. -/
theorem tokenize_returns_on_listed_characters_witness :
    ∃ out, tokenize ("if (a1 <= ".toList ++ squote :: 'x' :: squote ::
      ") \x7b b = ".toList ++ dquote :: '#' :: dquote :: "; \x7d".toList) =
        Outcome.returned out :=
  tokenize_returns_on_listed_characters.1 _ (by decide)

/-- C19: whenever `tokenize` returns, the texts of the returned tokens, one
after the other, and the input are the same string once every whitespace
character (space, `\t`, `\n`, `\v`, `\f`, `\r`) and every quote character
(`"` and `'`) is deleted from both. -/
theorem texts_match_input_up_to_spaces_and_quotes (input : List Char) (out : List Token)
    (h : tokenize input = Outcome.returned out) :
    dropSpacesQuotes (texts out) = dropSpacesQuotes input := by
  have := tokenizeLoop_dropSpacesQuotes input input.length 0 [] out h
  simpa [texts, dropSpacesQuotes] using this

/-- C19 at the input `x = "a b" # c d`. -/
theorem texts_match_input_up_to_spaces_and_quotes_witness :
    dropSpacesQuotes (texts [tok .IDENTIFIER "x", tok .OPERATOR "=", tok .STRING "a b",
        tok .COMMENT "# c d"]) =
      dropSpacesQuotes ("x = ".toList ++ dquote :: "a b".toList ++ dquote :: " # c d".toList) :=
  texts_match_input_up_to_spaces_and_quotes _ _ (by decide)

/-- C20: a `.` at the cursor starts a `NUMBER` token, and whenever `tokenize`
returns, the text of every `OPERATOR` token starts with one of
`+ - * / % ^ & | ! < > = ~`, never with `.`; a `.` may come later in it. So
`a.b` is identifier, number `.`, identifier, and `x+.5` is identifier,
operator `+.`, number `5`. -/
theorem operator_never_starts_with_dot :
    (∀ (input : List Char) (pos : Nat) (tokens : List Token), input.getD pos nul = '.' →
      ∃ p text, step input pos tokens = some (p, tokens ++ [⟨TokenType.NUMBER, '.' :: text⟩])) ∧
    (∀ (input : List Char) (out : List Token), tokenize input = Outcome.returned out →
      ∀ t ∈ out, t.type = TokenType.OPERATOR →
        ∃ d tl, t.value = d :: tl ∧ d ∈ "+-*/%^&|!<>=~".toList) ∧
    tokenize "a.b".toList = Outcome.returned
      [tok .IDENTIFIER "a", tok .NUMBER ".", tok .IDENTIFIER "b"] ∧
    tokenize "x+.5".toList = Outcome.returned
      [tok .IDENTIFIER "x", tok .OPERATOR "+.", tok .NUMBER "5"] := by
  refine ⟨?_, ?_, by decide, by decide⟩
  · intro input pos tokens h
    have hlt : pos < input.length := lt_length_of_getD_ne_nul (by rw [h]; decide)
    have hc : input[pos] = '.' := by rw [← List.getD_eq_getElem _ nul hlt]; exact h
    refine ⟨pos + (((input.drop (pos + 1)).takeWhile fun x => isdigit x || x == '.').length + 1),
      (input.drop (pos + 1)).takeWhile fun x => isdigit x || x == '.', ?_⟩
    rw [step_eq_lexAt hlt, drop_eq_cons hlt, hc]
    rfl
  · intro input out h
    refine tokenize_forall (fun t => t.type = TokenType.OPERATOR →
      ∃ d tl, t.value = d :: tl ∧ d ∈ "+-*/%^&|!<>=~".toList) input ?_ h
    intro pos hlt hn t ht
    rw [drop_eq_cons hlt] at hn ht
    exact lexAt_operator_head _ _ hn t ht

/-- C20 at the cursor on the first `.` of `x+..5`, and at the operators of
`a <=.b`. -/
theorem operator_never_starts_with_dot_witness :
    (∃ p text, step "x+..5".toList 2 [] = some (p, [] ++ [⟨TokenType.NUMBER, '.' :: text⟩])) ∧
    ∀ t ∈ [tok .IDENTIFIER "a", tok .OPERATOR "<=.", tok .IDENTIFIER "b"],
      t.type = TokenType.OPERATOR → ∃ d tl, t.value = d :: tl ∧ d ∈ "+-*/%^&|!<>=~".toList :=
  ⟨operator_never_starts_with_dot.1 "x+..5".toList 2 [] (by decide),
   operator_never_starts_with_dot.2.1 "a <=.b".toList _ (by decide)⟩

end Ixo
